import Mathlib

/-
Verification of the APN surfactant-conductivity model
(src/surfactant_conductance_fit.py) against its specification.

The script computes, over IEEE floats, the APN monomer concentration
APNS1, the conductivity model APNConductivity, a nonlinear fit, and the
degree of ionization alpha.  We embed the numeric formulas over the real
numbers; scipy.special.erf is embedded as the Gauss error function
defined through the Gaussian integral.
-/

open Real Filter Set Topology MeasureTheory intervalIntegral

noncomputable section

/-- The Gauss error function, the embedding of scipy.special.erf used by the
source: erf x = (2 / sqrt pi) * (integral of exp (-t^2) for t from 0 to x). -/
def erf (x : ℝ) : ℝ := 2 / Real.sqrt π * ∫ t in (0:ℝ)..x, Real.exp (-t ^ 2)

/-- The denominator of the normalisation constant A of line 72 of the source:
1 + sqrt(2/pi) * r * exp(-1/(2 r r)) + erf(1/sqrt 2/r). -/
def APN_D (r : ℝ) : ℝ :=
  1 + Real.sqrt (2 / π) * r * Real.exp (-1 / (2 * r * r)) + erf (1 / Real.sqrt 2 / r)

/-- The normalisation constant A computed on line 72 of the source inside
APNS1; it depends only on r, so it is hoisted to a top-level definition:
A = 2 / (1 + sqrt(2/pi) * r * exp(-1/(2 r r)) + erf(1/sqrt 2/r)). -/
def APN_A (r : ℝ) : ℝ := 2 / APN_D r

/-- Embedding of APNS1(cS0, cmc, r) (source lines 69-74): the APN-model
monomer concentration as a function of the total concentration cS0, the
critical micelle concentration cmc and the relative transition width r.
The local variables of the source are inlined: s0 = cS0/cmc and A = APN_A r. -/
def APNS1 (cS0 cmc r : ℝ) : ℝ :=
  cmc * (1 - APN_A r / 2 *
    (Real.sqrt (2 / π) * r * Real.exp (-((cS0 / cmc - 1) ^ 2) / (2 * r * r)) +
      (cS0 / cmc - 1) * (erf ((cS0 / cmc - 1) / (Real.sqrt 2 * r)) - 1)))

/-- The divisors of every division performed while evaluating APNS1:
cmc (line 70, s0 = cS0/cmc), pi (inside sqrt(2/pi)), 2*r*r (both exp
arguments), sqrt 2 then r (the erf argument 1/sqrt 2/r of line 72), the
denominator APN_D r of A, the constant 2 (in A/2), and sqrt 2 * r (the erf
argument of line 73). -/
def APNS1divisors (cmc r : ℝ) : List ℝ :=
  [cmc, π, 2 * r * r, Real.sqrt 2, r, APN_D r, 2, Real.sqrt 2 * r]

/-- Embedding of APNConductivity(cS0, cmc, r, a, b, c) (source lines 83-86):
predicted conductivity a * cS1 + b * cSm + c with cS1 = APNS1 and
cSm = cS0 - cS1. -/
def APNConductivity (cS0 cmc r a b c : ℝ) : ℝ :=
  let cS1 := APNS1 cS0 cmc r
  let cSm := cS0 - cS1
  a * cS1 + b * cSm + c

/-- Aggregation number (source line 131). -/
def N_agg : ℝ := 50

/-- Reference molar conductivity (source line 132). -/
def lambdaC : ℝ := 50.1

/-- Embedding of the degree-of-ionization computation (source line 134) as a
function of the two fitted slopes a = popt[2] and b = popt[3]; the Python
power ** on real operands is real rpow. -/
def alpha (a b : ℝ) : ℝ :=
  -1 * (lambdaC - (4 * b * N_agg ^ (0.667:ℝ) * (a - lambdaC) + lambdaC ^ 2) ^ (0.5:ℝ)) /
    (2 * N_agg ^ (0.667:ℝ) * (a - lambdaC))

/-- The radicand of the square root inside alpha (source line 134). -/
def alphaRadicand (a b : ℝ) : ℝ :=
  4 * b * N_agg ^ (0.667:ℝ) * (a - lambdaC) + lambdaC ^ 2

/-- The normalisation constant of the spec, section 4.1:
A = 2 / (1 + sqrt(2/pi) * r * exp(-1/(2 r^2)) + erf(1/(sqrt 2 * r))). -/
def specA (r : ℝ) : ℝ :=
  2 / (1 + Real.sqrt (2 / π) * r * Real.exp (-1 / (2 * r ^ 2)) + erf (1 / (Real.sqrt 2 * r)))

/-- The monomer concentration formula as written in the spec, section 4.1:
cS1 = cmc * (1 - (A/2) * (sqrt(2/pi) * r * exp(-(s0-1)^2/(2 r^2))
+ (s0-1) * (erf((s0-1)/(sqrt 2 * r)) - 1))) with s0 = cS0/cmc. -/
def specS1 (cS0 cmc r : ℝ) : ℝ :=
  cmc * (1 - specA r / 2 *
    (Real.sqrt (2 / π) * r * Real.exp (-((cS0 / cmc - 1) ^ 2) / (2 * r ^ 2)) +
      (cS0 / cmc - 1) * (erf ((cS0 / cmc - 1) / (Real.sqrt 2 * r)) - 1)))

/-- The degree-of-ionization formula as written in the spec, section 4.5:
alpha = -(lambdaC - sqrt(4 b N_agg^0.667 (a - lambdaC) + lambdaC^2))
/ (2 N_agg^0.667 (a - lambdaC)). -/
def alphaSpec (a b : ℝ) : ℝ :=
  -(lambdaC - Real.sqrt (4 * b * N_agg ^ (0.667:ℝ) * (a - lambdaC) + lambdaC ^ 2)) /
    (2 * N_agg ^ (0.667:ℝ) * (a - lambdaC))

end

/-- Modelled from the spec: the outcome of the Nonlinear Optimizer of section
4.3 (realised in the source by scipy.optimize.curve_fit on line 104, whose
implementation is not part of this repository): either convergence to a
best-fit five-component Parameter Vector, or a distinct did-not-converge
outcome. -/
inductive FitOutcome where
  | converged : (Fin 5 → ℝ) → FitOutcome
  | didNotConverge : FitOutcome

/-- Modelled from the spec: one Levenberg-Marquardt iteration of section 4.3
evaluates the residual once plus one finite-difference Jacobian column per
parameter of the five-component Parameter Vector, so it costs at least
1 + 5 = 6 function evaluations before the convergence test can run. -/
def lmIterationCost : ℕ := 6

/-- The maximum number of function evaluations the source passes to the
optimizer (maxfev = 2000 on line 104). -/
def maxfevDefault : ℕ := 2000

/-- Modelled from the spec: the optimization loop of section 4.3, abstracted
over the damped Gauss-Newton step and the convergence test.  Each iteration
first spends lmIterationCost function evaluations from the remaining budget
maxfev, takes a step, and tests convergence; if the budget cannot pay for an
iteration the loop stops with the distinct didNotConverge outcome, never
returning the current iterate as if it were optimal. -/
def lmRun (step : (Fin 5 → ℝ) → (Fin 5 → ℝ)) (isConverged : (Fin 5 → ℝ) → Bool)
    (maxfev : ℕ) (p : Fin 5 → ℝ) : FitOutcome :=
  if h : lmIterationCost ≤ maxfev then
    if isConverged (step p) = true then FitOutcome.converged (step p)
    else lmRun step isConverged (maxfev - lmIterationCost) (step p)
  else FitOutcome.didNotConverge
termination_by maxfev
decreasing_by
  simp only [lmIterationCost] at h ⊢
  omega

lemma APN_A_eq_specA (r : ℝ) : APN_A r = specA r := by
  unfold APN_A APN_D specA
  rw [div_div]
  ring_nf

/-- Claim C1: for every total concentration cS0 and parameters cmc > 0, r > 0,
the Monomer Model APNS1(cS0, cmc, r) returns exactly the closed-form
expression of the spec. -/
theorem APNS1_matches_spec_formula (cS0 cmc r : ℝ) (hc : 0 < cmc) (hr : 0 < r) :
    APNS1 cS0 cmc r = specS1 cS0 cmc r := by
  unfold APNS1 specS1
  rw [APN_A_eq_specA]
  ring_nf

/-- Witness for claim C1 at the concrete input cS0 = 1, cmc = 1, r = 1. -/
theorem APNS1_matches_spec_formula_witness : APNS1 1 1 1 = specS1 1 1 1 :=
  APNS1_matches_spec_formula 1 1 1 one_pos one_pos

/-- Claim C2: for every cS0 and parameters (cmc, r, a, b, c) with cmc > 0,
r > 0, APNConductivity equals a * cS1 + b * (cS0 - cS1) + c where
cS1 = APNS1(cS0, cmc, r). -/
theorem APNConductivity_linear_mixture (cS0 cmc r a b c : ℝ) (hc : 0 < cmc) (hr : 0 < r) :
    APNConductivity cS0 cmc r a b c =
      a * APNS1 cS0 cmc r + b * (cS0 - APNS1 cS0 cmc r) + c := rfl

/-- Witness for claim C2 at the concrete input (1, 1, 1, 1, 1, 1). -/
theorem APNConductivity_linear_mixture_witness :
    APNConductivity 1 1 1 1 1 1 =
      1 * APNS1 1 1 1 + 1 * (1 - APNS1 1 1 1) + 1 :=
  APNConductivity_linear_mixture 1 1 1 1 1 1 one_pos one_pos

/-- Claim C7: the degree-of-ionization computation of the source equals the
closed-form expression of the spec as a pure scalar function of a and b,
with N_agg = 50 and lambdaC = 50.1. -/
theorem alpha_matches_spec_formula (a b : ℝ) : alpha a b = alphaSpec a b := by
  unfold alpha alphaSpec
  rw [show (0.5:ℝ) = 1 / 2 by norm_num, ← Real.sqrt_eq_rpow]
  ring

lemma gaussian_continuous : Continuous fun t : ℝ => Real.exp (-t ^ 2) :=
  Real.continuous_exp.comp (continuous_pow 2).neg

lemma gaussian_intervalIntegrable (a b : ℝ) :
    IntervalIntegrable (fun t : ℝ => Real.exp (-t ^ 2)) volume a b :=
  gaussian_continuous.intervalIntegrable a b

lemma erf_zero_val : erf 0 = 0 := by simp [erf]

lemma erf_neg (x : ℝ) : erf (-x) = -erf x := by
  unfold erf
  have h1 : (∫ t in (0:ℝ)..(-x), Real.exp (-t ^ 2))
      = ∫ t in (0:ℝ)..(-x), Real.exp (-(-t) ^ 2) := by
    simp
  rw [h1, intervalIntegral.integral_comp_neg fun t : ℝ => Real.exp (-t ^ 2)]
  simp only [neg_neg, neg_zero]
  rw [intervalIntegral.integral_symm]
  ring

lemma erf_nonneg {x : ℝ} (hx : 0 ≤ x) : 0 ≤ erf x := by
  unfold erf
  have h : 0 ≤ ∫ t in (0:ℝ)..x, Real.exp (-t ^ 2) :=
    intervalIntegral.integral_nonneg hx fun u _ => (Real.exp_pos _).le
  have h2 : (0:ℝ) ≤ 2 / Real.sqrt π := by positivity
  exact mul_nonneg h2 h

lemma gaussian_integrableOn_Ioi :
    IntegrableOn (fun t : ℝ => Real.exp (-t ^ 2)) (Ioi 0) := by
  have h := (integrable_exp_neg_mul_sq one_pos).integrableOn (s := Ioi (0:ℝ))
  simpa using h

lemma gaussian_integral_Ioi :
    ∫ t in Ioi (0:ℝ), Real.exp (-t ^ 2) = Real.sqrt π / 2 := by
  have h := integral_gaussian_Ioi 1
  simpa using h

lemma gaussian_intervalIntegral_le (x : ℝ) :
    (∫ t in (0:ℝ)..x, Real.exp (-t ^ 2)) ≤ Real.sqrt π / 2 := by
  rcases le_or_lt x 0 with hx | hx
  · have h0 : (∫ t in (0:ℝ)..x, Real.exp (-t ^ 2)) ≤ 0 := by
      rw [intervalIntegral.integral_symm]
      have : 0 ≤ ∫ t in x..(0:ℝ), Real.exp (-t ^ 2) :=
        intervalIntegral.integral_nonneg hx fun u _ => (Real.exp_pos _).le
      linarith
    have : (0:ℝ) ≤ Real.sqrt π / 2 := by positivity
    linarith
  · rw [intervalIntegral.integral_of_le hx.le, ← gaussian_integral_Ioi]
    apply setIntegral_mono_set gaussian_integrableOn_Ioi
    · exact Eventually.of_forall fun t => (Real.exp_pos _).le
    · exact HasSubset.Subset.eventuallyLE Ioc_subset_Ioi_self

lemma erf_le_one (x : ℝ) : erf x ≤ 1 := by
  unfold erf
  have h := gaussian_intervalIntegral_le x
  have hπ : 0 < Real.sqrt π := Real.sqrt_pos.mpr Real.pi_pos
  have h2 : (0:ℝ) ≤ 2 / Real.sqrt π := by positivity
  calc 2 / Real.sqrt π * ∫ t in (0:ℝ)..x, Real.exp (-t ^ 2)
      ≤ 2 / Real.sqrt π * (Real.sqrt π / 2) := mul_le_mul_of_nonneg_left h h2
    _ = 1 := by field_simp

lemma hasDerivAt_erf (x : ℝ) :
    HasDerivAt erf (2 / Real.sqrt π * Real.exp (-x ^ 2)) x := by
  have h : HasDerivAt (fun u : ℝ => ∫ t in (0:ℝ)..u, Real.exp (-t ^ 2))
      (Real.exp (-x ^ 2)) x :=
    intervalIntegral.integral_hasDerivAt_right (gaussian_intervalIntegrable 0 x)
      (gaussian_continuous.stronglyMeasurableAtFilter _ _)
      gaussian_continuous.continuousAt
  exact HasDerivAt.const_mul (2 / Real.sqrt π) h

lemma deriv_erf_eq (x : ℝ) : deriv erf x = 2 / Real.sqrt π * Real.exp (-x ^ 2) :=
  (hasDerivAt_erf x).deriv

lemma erf_strictMono : StrictMono erf :=
  strictMono_of_deriv_pos fun x => by rw [deriv_erf_eq]; positivity

lemma APN_D_pos {r : ℝ} (hr : 0 < r) : 0 < APN_D r := by
  unfold APN_D
  have h1 : 0 ≤ Real.sqrt (2 / π) * r * Real.exp (-1 / (2 * r * r)) := by positivity
  have h2 : 0 ≤ erf (1 / Real.sqrt 2 / r) := erf_nonneg (by positivity)
  linarith

lemma APN_D_ge_one {r : ℝ} (hr : 0 < r) : 1 ≤ APN_D r := by
  unfold APN_D
  have h1 : 0 ≤ Real.sqrt (2 / π) * r * Real.exp (-1 / (2 * r * r)) := by positivity
  have h2 : 0 ≤ erf (1 / Real.sqrt 2 / r) := erf_nonneg (by positivity)
  linarith

lemma APN_A_pos {r : ℝ} (hr : 0 < r) : 0 < APN_A r := by
  unfold APN_A
  exact div_pos two_pos (APN_D_pos hr)

lemma APN_A_le_two {r : ℝ} (hr : 0 < r) : APN_A r ≤ 2 := by
  unfold APN_A
  rw [div_le_iff₀ (APN_D_pos hr)]
  have := APN_D_ge_one hr
  linarith

lemma APNS1_at_cmc (cmc r : ℝ) (hc : cmc ≠ 0) :
    APNS1 cmc cmc r = cmc * (1 - APN_A r / 2 * (Real.sqrt (2 / π) * r)) := by
  unfold APNS1
  rw [div_self hc]
  norm_num

/-- Claim C10: for every cmc > 0 and r > 0, APNS1(0, cmc, r) = 0 exactly;
the normalisation constant A makes the monomer concentration vanish at zero
total concentration. -/
theorem APNS1_vanishes_at_zero (cmc r : ℝ) (hc : 0 < cmc) (hr : 0 < r) :
    APNS1 0 cmc r = 0 := by
  have hD : APN_D r ≠ 0 := (APN_D_pos hr).ne'
  have hbr : Real.sqrt (2 / π) * r * Real.exp (-(((0:ℝ) / cmc - 1) ^ 2) / (2 * r * r)) +
      ((0:ℝ) / cmc - 1) * (erf (((0:ℝ) / cmc - 1) / (Real.sqrt 2 * r)) - 1) = APN_D r := by
    rw [zero_div]
    have h1 : ((0:ℝ) - 1) / (Real.sqrt 2 * r) = -(1 / Real.sqrt 2 / r) := by ring
    have h2 : (-(((0:ℝ) - 1) ^ 2)) / (2 * r * r) = -1 / (2 * r * r) := by ring
    rw [h1, h2, erf_neg]
    unfold APN_D
    ring
  unfold APNS1
  rw [hbr]
  unfold APN_A
  field_simp
  ring

/-- Witness for claim C10 at the concrete input cmc = 1, r = 1. -/
theorem APNS1_vanishes_at_zero_witness : APNS1 0 1 1 = 0 :=
  APNS1_vanishes_at_zero 1 1 one_pos one_pos

lemma sqrt_two_div_pi_le_one : Real.sqrt (2 / π) ≤ 1 := by
  rw [Real.sqrt_le_one, div_le_one Real.pi_pos]
  linarith [Real.pi_gt_three]

lemma APN_midterm_bounds {r : ℝ} (hr : 0 < r) :
    0 ≤ APN_A r / 2 * (Real.sqrt (2 / π) * r) ∧
    APN_A r / 2 * (Real.sqrt (2 / π) * r) ≤ r := by
  have hA0 : 0 < APN_A r := APN_A_pos hr
  have hA2 : APN_A r ≤ 2 := APN_A_le_two hr
  have hc0 : 0 ≤ Real.sqrt (2 / π) := Real.sqrt_nonneg _
  have hc1 : Real.sqrt (2 / π) ≤ 1 := sqrt_two_div_pi_le_one
  have hA1 : APN_A r / 2 ≤ 1 := by linarith
  have hcr0 : 0 ≤ Real.sqrt (2 / π) * r := mul_nonneg hc0 hr.le
  have hcr : Real.sqrt (2 / π) * r ≤ r := by nlinarith
  constructor
  · exact mul_nonneg (by linarith) hcr0
  · calc APN_A r / 2 * (Real.sqrt (2 / π) * r)
        ≤ 1 * (Real.sqrt (2 / π) * r) := mul_le_mul_of_nonneg_right hA1 hcr0
      _ = Real.sqrt (2 / π) * r := one_mul _
      _ ≤ r := hcr

/-- Counterexample for claim C3: at cmc = 1, r = 1/10 the Monomer Model at
the transition midpoint differs from cmc / 2 by more than 1/4 (its value is
in fact at least 9/10 of cmc). -/
theorem APNS1_midpoint_counterexample :
    1 / 4 < |APNS1 1 1 (1 / 10) - 1 / 2| := by
  have h := APNS1_at_cmc 1 (1 / 10) one_ne_zero
  obtain ⟨hx0, hx⟩ := APN_midterm_bounds (r := 1 / 10) (by norm_num)
  rw [h, abs_of_pos (by nlinarith)]
  nlinarith

/-- Claim C3 (amended): for cmc > 0 and r > 0 the Monomer Model at the
transition midpoint equals cmc * (1 - (A/2) * sqrt(2/pi) * r) exactly, a
value between cmc * (1 - r) and cmc; for small r it is close to cmc, not to
cmc / 2. -/
theorem APNS1_midpoint_value (cmc r : ℝ) (hc : 0 < cmc) (hr : 0 < r) :
    APNS1 cmc cmc r = cmc * (1 - APN_A r / 2 * (Real.sqrt (2 / π) * r)) ∧
    cmc * (1 - r) ≤ APNS1 cmc cmc r ∧ APNS1 cmc cmc r ≤ cmc := by
  have h := APNS1_at_cmc cmc r hc.ne'
  obtain ⟨hx0, hx⟩ := APN_midterm_bounds hr
  refine ⟨h, ?_, ?_⟩
  · rw [h]
    have h1 : 1 - r ≤ 1 - APN_A r / 2 * (Real.sqrt (2 / π) * r) := by linarith
    exact mul_le_mul_of_nonneg_left h1 hc.le
  · rw [h]
    have h1 : 1 - APN_A r / 2 * (Real.sqrt (2 / π) * r) ≤ 1 := by linarith
    nlinarith

/-- Witness for the amended claim C3 at the concrete input cmc = 1, r = 1/2. -/
theorem APNS1_midpoint_value_witness :
    APNS1 1 1 (1 / 2) = 1 * (1 - APN_A (1 / 2) / 2 * (Real.sqrt (2 / π) * (1 / 2))) ∧
    1 * (1 - 1 / 2) ≤ APNS1 1 1 (1 / 2) ∧ APNS1 1 1 (1 / 2) ≤ 1 :=
  APNS1_midpoint_value 1 (1 / 2) one_pos one_half_pos

/-- Counterexample for claim C6: the precondition r > 0 alone does not make
every divisor in APNS1 nonzero; at cmc = 0 (and r = 1 > 0) the division
s0 = cS0 / cmc on line 70 has the zero divisor cmc. -/
theorem APNS1_divisor_counterexample : (0:ℝ) ∈ APNS1divisors 0 1 := by
  simp [APNS1divisors]

/-- Claim C6 (amended): with r exactly 0 the subexpression 1/(2 r r) of
APNS1 divides by zero (its divisor 2*r*r is 0); under r > 0 together with
cmc different from 0 every division in APNS1 has a nonzero divisor; and the
program has no guard rejecting r at or below 0: APNS1 evaluates its formula
unconditionally, also at r = 0. -/
theorem APNS1_division_safety (cS0 cmc r : ℝ) (hr : 0 < r) (hc : cmc ≠ 0) :
    (0:ℝ) ∈ APNS1divisors cmc 0 ∧
    (∀ d ∈ APNS1divisors cmc r, d ≠ 0) ∧
    APNS1 cS0 cmc 0 = cmc * (1 - APN_A 0 / 2 *
      (Real.sqrt (2 / π) * 0 * Real.exp (-((cS0 / cmc - 1) ^ 2) / (2 * 0 * 0)) +
        (cS0 / cmc - 1) * (erf ((cS0 / cmc - 1) / (Real.sqrt 2 * 0)) - 1))) := by
  refine ⟨by simp [APNS1divisors], ?_, rfl⟩
  intro d hd
  have hs2 : Real.sqrt 2 ≠ 0 := (Real.sqrt_pos.mpr two_pos).ne'
  simp only [APNS1divisors, List.mem_cons, List.not_mem_nil, or_false] at hd
  rcases hd with rfl | rfl | rfl | rfl | rfl | rfl | rfl | rfl
  · exact hc
  · exact Real.pi_ne_zero
  · exact mul_ne_zero (mul_ne_zero two_ne_zero hr.ne') hr.ne'
  · exact hs2
  · exact hr.ne'
  · exact (APN_D_pos hr).ne'
  · exact two_ne_zero
  · exact mul_ne_zero hs2 hr.ne'

/-- Witness for the amended claim C6 at the concrete input cS0 = 1, cmc = 1,
r = 1. -/
theorem APNS1_division_safety_witness :
    (0:ℝ) ∈ APNS1divisors 1 0 ∧
    (∀ d ∈ APNS1divisors 1 1, d ≠ 0) ∧
    APNS1 1 1 0 = 1 * (1 - APN_A 0 / 2 *
      (Real.sqrt (2 / π) * 0 * Real.exp (-((1 / 1 - 1) ^ 2) / (2 * 0 * 0)) +
        (1 / 1 - 1) * (erf ((1 / 1 - 1) / (Real.sqrt 2 * 0)) - 1))) :=
  APNS1_division_safety 1 1 1 one_pos one_ne_zero

/-- Claim C8: at the failing input a = 70, b = -1000 the radicand of the
square root in the degree-of-ionization computation is negative; the source
applies the power 0.5 to it unconditionally, with no domain check, so over
IEEE floats it silently yields NaN instead of signaling a domain error. -/
theorem alphaRadicand_negative_failing_input :
    alphaRadicand 70 (-1000) < 0 ∧
    alpha 70 (-1000) = -1 * (lambdaC - alphaRadicand 70 (-1000) ^ (0.5:ℝ)) /
      (2 * N_agg ^ (0.667:ℝ) * (70 - lambdaC)) := by
  constructor
  · unfold alphaRadicand N_agg lambdaC
    have hX : (1:ℝ) ≤ (50:ℝ) ^ (0.667:ℝ) :=
      Real.one_le_rpow (by norm_num) (by norm_num)
    nlinarith
  · rfl

lemma tendsto_erf_atTop : Tendsto erf atTop (𝓝 1) := by
  have h1 : Tendsto (fun x : ℝ => ∫ t in (0:ℝ)..x, Real.exp (-t ^ 2)) atTop
      (𝓝 (∫ t in Ioi (0:ℝ), Real.exp (-t ^ 2))) :=
    intervalIntegral_tendsto_integral_Ioi 0 gaussian_integrableOn_Ioi tendsto_id
  rw [gaussian_integral_Ioi] at h1
  have h2 := h1.const_mul (2 / Real.sqrt π)
  have hπ : Real.sqrt π ≠ 0 := (Real.sqrt_pos.mpr Real.pi_pos).ne'
  have h3 : 2 / Real.sqrt π * (Real.sqrt π / 2) = 1 := by field_simp
  rw [h3] at h2
  exact h2

lemma tendsto_erf_atBot : Tendsto erf atBot (𝓝 (-1)) := by
  have h1 : Tendsto (fun x : ℝ => -erf (-x)) atBot (𝓝 (-1)) := by
    have h2 := (tendsto_erf_atTop.comp tendsto_neg_atBot_atTop).neg
    simpa using h2
  refine h1.congr fun x => ?_
  rw [erf_neg, neg_neg]

lemma tendsto_self_nhdsWithin : Tendsto (fun r : ℝ => r) (𝓝[>] (0:ℝ)) (𝓝 0) :=
  tendsto_id.mono_left nhdsWithin_le_nhds

lemma tendsto_mul_self_nhdsWithin :
    Tendsto (fun r : ℝ => r * r) (𝓝[>] (0:ℝ)) (𝓝[>] (0:ℝ)) := by
  rw [tendsto_nhdsWithin_iff]
  constructor
  · simpa using tendsto_self_nhdsWithin.mul tendsto_self_nhdsWithin
  · filter_upwards [self_mem_nhdsWithin] with r hr
    exact mul_pos hr hr

lemma tendsto_rr_inv_atTop : Tendsto (fun r : ℝ => (r * r)⁻¹) (𝓝[>] (0:ℝ)) atTop :=
  tendsto_inv_zero_atTop.comp tendsto_mul_self_nhdsWithin

lemma tendsto_exp_neg_inv :
    Tendsto (fun r : ℝ => Real.exp (-1 / (2 * r * r))) (𝓝[>] (0:ℝ)) (𝓝 0) := by
  have h1 : Tendsto (fun r : ℝ => -1 / (2 * r * r)) (𝓝[>] (0:ℝ)) atBot := by
    have h2 : Tendsto (fun r : ℝ => (-1 / 2) * (r * r)⁻¹) (𝓝[>] (0:ℝ)) atBot :=
      Tendsto.const_mul_atTop_of_neg (by norm_num) tendsto_rr_inv_atTop
    exact h2.congr fun r => by ring
  exact Real.tendsto_exp_atBot.comp h1

lemma tendsto_gauss_term (u : ℝ) :
    Tendsto (fun r : ℝ => Real.sqrt (2 / π) * r * Real.exp (-(u ^ 2) / (2 * r * r)))
      (𝓝[>] (0:ℝ)) (𝓝 0) := by
  have hg : Tendsto (fun r : ℝ => Real.sqrt (2 / π) * r) (𝓝[>] (0:ℝ)) (𝓝 0) := by
    simpa using tendsto_self_nhdsWithin.const_mul (Real.sqrt (2 / π))
  apply squeeze_zero' ?_ ?_ hg
  · filter_upwards [self_mem_nhdsWithin] with r hr
    have hrpos : (0:ℝ) < r := hr
    positivity
  · filter_upwards [self_mem_nhdsWithin] with r hr
    have hrpos : (0:ℝ) < r := hr
    have hE : -(u ^ 2) / (2 * r * r) ≤ 0 :=
      div_nonpos_of_nonpos_of_nonneg (by nlinarith [sq_nonneg u]) (by positivity)
    have hexp : Real.exp (-(u ^ 2) / (2 * r * r)) ≤ 1 := by
      calc Real.exp (-(u ^ 2) / (2 * r * r)) ≤ Real.exp 0 := Real.exp_le_exp.mpr hE
        _ = 1 := Real.exp_zero
    exact mul_le_of_le_one_right (by positivity) hexp

lemma tendsto_APN_D : Tendsto APN_D (𝓝[>] (0:ℝ)) (𝓝 2) := by
  have herfarg : Tendsto (fun r : ℝ => 1 / Real.sqrt 2 / r) (𝓝[>] (0:ℝ)) atTop := by
    have h2 : Tendsto (fun r : ℝ => (1 / Real.sqrt 2) * r⁻¹) (𝓝[>] (0:ℝ)) atTop :=
      Tendsto.const_mul_atTop (by positivity) tendsto_inv_zero_atTop
    exact h2.congr fun r => by ring
  have herf : Tendsto (fun r : ℝ => erf (1 / Real.sqrt 2 / r)) (𝓝[>] (0:ℝ)) (𝓝 1) :=
    tendsto_erf_atTop.comp herfarg
  have hterm : Tendsto (fun r : ℝ => Real.sqrt (2 / π) * r * Real.exp (-1 / (2 * r * r)))
      (𝓝[>] (0:ℝ)) (𝓝 0) := by
    have hg : Tendsto (fun r : ℝ => Real.sqrt (2 / π) * r) (𝓝[>] (0:ℝ)) (𝓝 0) := by
      simpa using tendsto_self_nhdsWithin.const_mul (Real.sqrt (2 / π))
    simpa using hg.mul tendsto_exp_neg_inv
  have h1 : Tendsto (fun _ : ℝ => (1:ℝ)) (𝓝[>] (0:ℝ)) (𝓝 1) := tendsto_const_nhds
  have h := (h1.add hterm).add herf
  unfold APN_D
  have h12 : (1:ℝ) + 0 + 1 = 2 := by norm_num
  exact h12 ▸ h

lemma tendsto_APN_A : Tendsto APN_A (𝓝[>] (0:ℝ)) (𝓝 1) := by
  have h2 : Tendsto (fun _ : ℝ => (2:ℝ)) (𝓝[>] (0:ℝ)) (𝓝 2) := tendsto_const_nhds
  have h := h2.div tendsto_APN_D two_ne_zero
  unfold APN_A
  simpa using h

/-- Claim C4: for every fixed cS0 at least 0 and cmc > 0, the value
APNS1(cS0, cmc, r) converges to min(cS0, cmc) as r tends to 0 from above
(the sharp-kink limit of the smoothed step). -/
theorem APNS1_sharp_kink_limit (cS0 cmc : ℝ) (h0 : 0 ≤ cS0) (hc : 0 < cmc) :
    Tendsto (fun r => APNS1 cS0 cmc r) (𝓝[>] (0:ℝ)) (𝓝 (min cS0 cmc)) := by
  have hA2 : Tendsto (fun r : ℝ => APN_A r / 2) (𝓝[>] (0:ℝ)) (𝓝 (1 / 2)) :=
    tendsto_APN_A.div_const 2
  have hcne : cmc ≠ 0 := hc.ne'
  have hs2 : (0:ℝ) < Real.sqrt 2 := Real.sqrt_pos.mpr two_pos
  have h1c : Tendsto (fun _ : ℝ => (1:ℝ)) (𝓝[>] (0:ℝ)) (𝓝 1) := tendsto_const_nhds
  unfold APNS1
  set u : ℝ := cS0 / cmc - 1 with hu
  rcases lt_or_le cS0 cmc with hcase | hcase
  · have hun : u < 0 := by
      rw [hu]
      exact sub_neg.mpr ((div_lt_one hc).mpr hcase)
    have harg : Tendsto (fun r : ℝ => u / (Real.sqrt 2 * r)) (𝓝[>] (0:ℝ)) atBot := by
      have h2 : Tendsto (fun r : ℝ => (u / Real.sqrt 2) * r⁻¹) (𝓝[>] (0:ℝ)) atBot :=
        Tendsto.const_mul_atTop_of_neg (div_neg_of_neg_of_pos hun hs2) tendsto_inv_zero_atTop
      exact h2.congr fun r => by ring
    have hT2 : Tendsto (fun r : ℝ => u * (erf (u / (Real.sqrt 2 * r)) - 1))
        (𝓝[>] (0:ℝ)) (𝓝 (u * (-1 - 1))) :=
      ((tendsto_erf_atBot.comp harg).sub tendsto_const_nhds).const_mul u
    have hsum := (tendsto_gauss_term u).add hT2
    have h := (h1c.sub (hA2.mul hsum)).const_mul cmc
    convert h using 2
    rw [min_eq_left hcase.le, hu]
    field_simp
    ring
  · have hun0 : 0 ≤ u := by
      rw [hu]
      exact sub_nonneg.mpr ((one_le_div hc).mpr hcase)
    have hT2 : Tendsto (fun r : ℝ => u * (erf (u / (Real.sqrt 2 * r)) - 1))
        (𝓝[>] (0:ℝ)) (𝓝 0) := by
      rcases eq_or_lt_of_le hun0 with h0u | h0u
      · exact tendsto_const_nhds.congr fun r => by rw [← h0u]; ring
      · have harg : Tendsto (fun r : ℝ => u / (Real.sqrt 2 * r)) (𝓝[>] (0:ℝ)) atTop := by
          have h2 : Tendsto (fun r : ℝ => (u / Real.sqrt 2) * r⁻¹) (𝓝[>] (0:ℝ)) atTop :=
            Tendsto.const_mul_atTop (div_pos h0u hs2) tendsto_inv_zero_atTop
          exact h2.congr fun r => by ring
        have h3 : Tendsto (fun r : ℝ => u * (erf (u / (Real.sqrt 2 * r)) - 1))
            (𝓝[>] (0:ℝ)) (𝓝 (u * (1 - 1))) :=
          ((tendsto_erf_atTop.comp harg).sub tendsto_const_nhds).const_mul u
        simpa using h3
    have hsum := (tendsto_gauss_term u).add hT2
    have h := (h1c.sub (hA2.mul hsum)).const_mul cmc
    convert h using 2
    rw [min_eq_right hcase]
    ring

/-- Witness for claim C4 at the concrete input cS0 = 2, cmc = 1. -/
theorem APNS1_sharp_kink_limit_witness :
    Tendsto (fun r => APNS1 2 1 r) (𝓝[>] (0:ℝ)) (𝓝 (min 2 1)) :=
  APNS1_sharp_kink_limit 2 1 zero_le_two one_pos

lemma neg_sq_div_eq (w r : ℝ) :
    -((w / (Real.sqrt 2 * r)) ^ 2) = -(w ^ 2) / (2 * r * r) := by
  rw [div_pow, mul_pow, Real.sq_sqrt (by norm_num : (0:ℝ) ≤ 2)]
  ring

lemma hasDerivAt_APNS1 (cS0 cmc r : ℝ) (hc : 0 < cmc) (hr : 0 < r) :
    HasDerivAt (fun x => APNS1 x cmc r)
      (APN_A r / 2 * (1 - erf ((cS0 / cmc - 1) / (Real.sqrt 2 * r)))) cS0 := by
  have hcne : cmc ≠ 0 := hc.ne'
  have hrne : r ≠ 0 := hr.ne'
  have hw : HasDerivAt (fun x : ℝ => x / cmc - 1) (1 / cmc) cS0 :=
    ((hasDerivAt_id cS0).div_const cmc).sub_const 1
  have hE : HasDerivAt (fun x : ℝ => -((x / cmc - 1) ^ 2) / (2 * r * r))
      (-((2:ℕ) * (cS0 / cmc - 1) ^ (2 - 1) * (1 / cmc)) / (2 * r * r)) cS0 :=
    ((hw.pow 2).neg).div_const (2 * r * r)
  have hexpE := hE.exp
  have hterm1 := hexpE.const_mul (Real.sqrt (2 / π) * r)
  have hv : HasDerivAt (fun x : ℝ => (x / cmc - 1) / (Real.sqrt 2 * r))
      (1 / cmc / (Real.sqrt 2 * r)) cS0 := hw.div_const _
  have herfc : HasDerivAt (fun x : ℝ => erf ((x / cmc - 1) / (Real.sqrt 2 * r)))
      (2 / Real.sqrt π *
        Real.exp (-(((cS0 / cmc - 1) / (Real.sqrt 2 * r)) ^ 2)) *
        (1 / cmc / (Real.sqrt 2 * r))) cS0 :=
    (hasDerivAt_erf _).comp cS0 hv
  rw [neg_sq_div_eq] at herfc
  have hterm2 := hw.mul (herfc.sub_const 1)
  have hsum := hterm1.add hterm2
  have hfull := ((hsum.const_mul (APN_A r / 2)).const_sub 1).const_mul cmc
  unfold APNS1
  convert hfull using 1
  have h22 : Real.sqrt 2 * Real.sqrt 2 = 2 := Real.mul_self_sqrt (by norm_num)
  have hs2 : Real.sqrt 2 ≠ 0 := (Real.sqrt_pos.mpr two_pos).ne'
  have hsπ : Real.sqrt π ≠ 0 := (Real.sqrt_pos.mpr Real.pi_pos).ne'
  have hc2π : Real.sqrt (2 / π) = Real.sqrt 2 / Real.sqrt π :=
    Real.sqrt_div (by norm_num) π
  rw [hc2π]
  push_cast
  field_simp
  ring_nf
  rw [Real.sq_sqrt (by norm_num : (0:ℝ) ≤ 2)]
  ring

/-- Claim C5: for all cmc > 0 and r > 0, the map cS0 to APNS1(cS0, cmc, r)
is non-decreasing on the interval from 0 to cmc, and its growth rate (the
derivative with respect to cS0) is smaller beyond cmc than below it. -/
theorem APNS1_monotone_saturation (cmc r : ℝ) (hc : 0 < cmc) (hr : 0 < r) :
    MonotoneOn (fun x => APNS1 x cmc r) (Icc 0 cmc) ∧
    ∀ x y : ℝ, 0 ≤ x → x < cmc → cmc < y →
      deriv (fun t => APNS1 t cmc r) y < deriv (fun t => APNS1 t cmc r) x := by
  have hA0 : 0 < APN_A r := APN_A_pos hr
  have hderiv : ∀ x : ℝ, deriv (fun t => APNS1 t cmc r) x =
      APN_A r / 2 * (1 - erf ((x / cmc - 1) / (Real.sqrt 2 * r))) :=
    fun x => (hasDerivAt_APNS1 x cmc r hc hr).deriv
  constructor
  · have hmono : Monotone (fun x => APNS1 x cmc r) := by
      apply monotone_of_deriv_nonneg
      · exact fun x => (hasDerivAt_APNS1 x cmc r hc hr).differentiableAt
      · intro x
        rw [hderiv x]
        have h1 := erf_le_one ((x / cmc - 1) / (Real.sqrt 2 * r))
        nlinarith
    exact hmono.monotoneOn _
  · intro x y hx0 hx hy
    rw [hderiv x, hderiv y]
    have hs2r : 0 < Real.sqrt 2 * r := mul_pos (Real.sqrt_pos.mpr two_pos) hr
    have hvlt : (x / cmc - 1) / (Real.sqrt 2 * r) < (y / cmc - 1) / (Real.sqrt 2 * r) := by
      gcongr
      exact hx.trans hy
    have herf := erf_strictMono hvlt
    nlinarith

/-- Witness for claim C5 at the concrete input cmc = 1, r = 1. -/
theorem APNS1_monotone_saturation_witness :
    MonotoneOn (fun x => APNS1 x 1 1) (Icc 0 1) ∧
    ∀ x y : ℝ, 0 ≤ x → x < 1 → 1 < y →
      deriv (fun t => APNS1 t 1 1) y < deriv (fun t => APNS1 t 1 1) x :=
  APNS1_monotone_saturation 1 1 one_pos one_pos

lemma lmRun_success_requires_convergence
    (step : (Fin 5 → ℝ) → (Fin 5 → ℝ)) (isConverged : (Fin 5 → ℝ) → Bool)
    (maxfev : ℕ) (p q : Fin 5 → ℝ)
    (h : lmRun step isConverged maxfev p = FitOutcome.converged q) :
    isConverged q = true := by
  induction maxfev using Nat.strong_induction_on generalizing p with
  | _ n ih =>
    rw [lmRun] at h
    by_cases h6 : lmIterationCost ≤ n
    · rw [dif_pos h6] at h
      by_cases hcv : isConverged (step p) = true
      · rw [if_pos hcv] at h
        cases h
        exact hcv
      · rw [if_neg hcv] at h
        exact ih (n - lmIterationCost) (by simp only [lmIterationCost] at h6 ⊢; omega) _ h
    · rw [dif_neg h6] at h
      cases h

lemma lmRun_never_converges
    (step : (Fin 5 → ℝ) → (Fin 5 → ℝ)) (isConverged : (Fin 5 → ℝ) → Bool)
    (maxfev : ℕ) (p : Fin 5 → ℝ) (hnc : ∀ s, isConverged s = false) :
    lmRun step isConverged maxfev p = FitOutcome.didNotConverge := by
  induction maxfev using Nat.strong_induction_on generalizing p with
  | _ n ih =>
    rw [lmRun]
    by_cases h6 : lmIterationCost ≤ n
    · rw [dif_pos h6, if_neg (by simp [hnc])]
      exact ih (n - lmIterationCost) (by simp only [lmIterationCost] at h6 ⊢; omega) _
    · rw [dif_neg h6]

/-- Claim C9 (spec-modelled): if the Optimizer exhausts its evaluation budget
without the convergence test ever succeeding, the fit reports the distinct
didNotConverge outcome rather than silently returning the last iterate; in
particular with the maximum evaluation count set to 1 the budget cannot pay
for even one iteration, so the fit reports a convergence failure, never a
spurious success with the unmodified initial guess. -/
theorem lmRun_budget_exhaustion
    (step : (Fin 5 → ℝ) → (Fin 5 → ℝ)) (isConverged : (Fin 5 → ℝ) → Bool)
    (maxfev : ℕ) (p : Fin 5 → ℝ) (hnc : ∀ s, isConverged s = false) :
    lmRun step isConverged maxfev p = FitOutcome.didNotConverge ∧
    lmRun step isConverged 1 p = FitOutcome.didNotConverge := by
  constructor
  · exact lmRun_never_converges step isConverged maxfev p hnc
  · rw [lmRun]
    rw [dif_neg (by simp [lmIterationCost])]

/-- Witness for claim C9 at a concrete instantiation: identity step, a test
that never reports convergence, the zero initial guess, and the budget 2000
used by the source. -/
theorem lmRun_budget_exhaustion_witness :
    lmRun id (fun _ => false) maxfevDefault (fun _ => 0) = FitOutcome.didNotConverge ∧
    lmRun id (fun _ => false) 1 (fun _ => 0) = FitOutcome.didNotConverge :=
  lmRun_budget_exhaustion id (fun _ => false) maxfevDefault (fun _ => 0) fun _ => rfl
